import Mathlib

/-!
Shallow embedding of the vim-sort-folds plugin (python3/SortFolds/__init__.py
and python3/sort_folds/fold.py) and verification of its specification.

Buffers are modelled as `List Line` (`Line := String`).  Python / vim list
indexing and slicing are modelled with `Int` indices and the usual Python
clamping and negative-index rules; fallible indexing returns `Option`.
-/

/-- A buffer line, as in the Python source: a string. -/
abbrev Line := String

/-! ### Python list / vim buffer primitives -/

/-- Python slice-bound resolution: a negative bound counts from the end and is
clamped below at 0; a non-negative bound is clamped above at the length.  Used
by slice reads, slice assignment and `list.insert`. -/
def pyIdxClamp (len : Nat) (i : Int) : Nat :=
  if i < 0 then (i + len).toNat else min i.toNat len

/-- Python `l[i]` on a list / vim buffer: a negative index counts from the
end; an index out of range is an `IndexError`, modelled as `none`. -/
def bufGet (l : List Line) (i : Int) : Option Line :=
  let j := if i < 0 then i + l.length else i
  if 0 ≤ j ∧ j < l.length then l[j.toNat]? else none

/-- Python `l[i] = v`: same index resolution as `bufGet`; out of range is an
`IndexError` (`none`). -/
def bufSet (l : List Line) (i : Int) (v : Line) : Option (List Line) :=
  let j := if i < 0 then i + l.length else i
  if 0 ≤ j ∧ j < l.length then some (l.set j.toNat v) else none

/-- Python `del l[i]`: same index resolution; out of range is an `IndexError`
(`none`). -/
def bufDel (l : List Line) (i : Int) : Option (List Line) :=
  let j := if i < 0 then i + l.length else i
  if 0 ≤ j ∧ j < l.length then some (l.eraseIdx j.toNat) else none

/-- Python `l[a:b]` (step 1): both bounds resolved by `pyIdxClamp`; an empty
slice results when the resolved stop is at or before the resolved start. -/
def pySliceGet (l : List Line) (a b : Int) : List Line :=
  let i := pyIdxClamp l.length a
  let j := pyIdxClamp l.length b
  (l.drop i).take (j - i)

/-- Python `l[a:b] = xs` (step 1): replaces the resolved slice by `xs`; when
the resolved stop is before the resolved start, nothing is removed and `xs`
is inserted at the resolved start. -/
def pySliceAssign (l : List Line) (a b : Int) (xs : List Line) : List Line :=
  let i := pyIdxClamp l.length a
  let j := max i (pyIdxClamp l.length b)
  l.take i ++ xs ++ l.drop j

/-- Python `l.insert(i, v)`: the index is resolved and clamped by the same
rule as slice bounds, then `v` is inserted before position `i`. -/
def pyInsert (l : List Line) (i : Int) (v : Line) : List Line :=
  let j := pyIdxClamp l.length i
  l.take j ++ [v] ++ l.drop j

/-! ### `Fold` and `sort_folds` (python3/SortFolds/__init__.py)

`Fold.__init__` converts the 1-based inclusive start and 1-based exclusive
end line numbers into 0-based indices (`start`, `end`; the `end` attribute is
called `fend` here because `end` is a Lean keyword). -/

/-- `Fold` of `SortFolds/__init__.py`: 0-based start (inclusive) and end
(exclusive) buffer indices. -/
structure Fold where
  start : Int
  fend : Int
deriving DecidableEq, Repr

/-- `Fold(start_line_num, end_line_num)`: subtracts one from each 1-based
line number. -/
def Fold.ofLineNums (r : Nat × Nat) : Fold :=
  ⟨(r.1 : Int) - 1, (r.2 : Int) - 1⟩

/-- `Fold.__getitem__(i)`: reads `vim.current.buffer[self.start + i]` — note
that the source performs no bound check against the fold's own end. -/
def Fold.getLine (f : Fold) (buf : List Line) (i : Int) : Option Line :=
  bufGet buf (f.start + i)

/-- The fold list built by `sort_folds`:
`list(Fold(*r) for r in get_fold_ranges_in_current_range())`.  The locator's
output (1-based (start, exclusive end) pairs) is a parameter here, since it
is produced by host (vim) fold queries and motions. -/
def initialFoldsOf (ranges : List (Nat × Nat)) : List Fold :=
  ranges.map Fold.ofLineNums

/-- Key extraction performed by `sorted(initial_folds,
key=operator.itemgetter(index_key))`: CPython computes the key of every
element up front, so one failing lookup aborts the whole call. -/
def keysOf (buf : List Line) (k : Int) : List Fold → Option (List Line)
  | [] => some []
  | f :: fs => do
      let key ← f.getLine buf k
      let rest ← keysOf buf k fs
      return key :: rest

/-- Python string `<`: lexicographic comparison of the code-point
sequences. -/
def lexLtB : List Char → List Char → Bool
  | [], [] => false
  | [], _ :: _ => true
  | _ :: _, [] => false
  | c :: cs, d :: ds =>
      if c.toNat < d.toNat then true
      else if d.toNat < c.toNat then false
      else lexLtB cs ds

/-- Python `s < t` on strings. -/
def pyStrLt (s t : String) : Bool := lexLtB s.data t.data

theorem lexLtB_irrefl : ∀ a, lexLtB a a = false
  | [] => rfl
  | _ :: cs => by simp [lexLtB, lexLtB_irrefl cs]

theorem lexLtB_asymm : ∀ a b, lexLtB a b = true → lexLtB b a = false
  | [], [], h => by simp [lexLtB] at h
  | [], _ :: _, _ => rfl
  | _ :: _, [], h => by simp [lexLtB] at h
  | c :: cs, d :: ds, h => by
      by_cases hcd : c.toNat < d.toNat
      · simp [lexLtB, hcd, Nat.lt_asymm hcd, Nat.not_lt.mpr (Nat.le_of_lt hcd)]
      · by_cases hdc : d.toNat < c.toNat
        · simp [lexLtB, hcd, hdc] at h
        · simp only [lexLtB, if_neg hcd, if_neg hdc] at h
          simp [lexLtB, hcd, hdc, lexLtB_asymm cs ds h]

theorem lexLtB_lt_or_lt : ∀ a b c, lexLtB a c = true →
    lexLtB a b = true ∨ lexLtB b c = true
  | [], b, c, h => by
      cases b with
      | nil => exact Or.inr h
      | cons x xs => exact Or.inl rfl
  | _ :: _, b, [], h => by simp [lexLtB] at h
  | x :: xs, b, z :: zs, h => by
      cases b with
      | nil => exact Or.inr rfl
      | cons y ys =>
          rcases Nat.lt_trichotomy x.toNat y.toNat with hxy | hxy | hxy
          · exact Or.inl (by simp [lexLtB, hxy])
          · by_cases hxz : x.toNat < z.toNat
            · refine Or.inr ?_
              simp [lexLtB, hxy ▸ hxz]
            · by_cases hzx : z.toNat < x.toNat
              · simp [lexLtB, hxz, hzx] at h
              · simp only [lexLtB, if_neg hxz, if_neg hzx] at h
                rcases lexLtB_lt_or_lt xs ys zs h with h' | h'
                · exact Or.inl (by simp [lexLtB, hxy, h'])
                · exact Or.inr (by simp [lexLtB, hxy ▸ hxz, hxy ▸ hzx, h'])
          · have hyz : y.toNat < z.toNat := by
              by_cases hxz : x.toNat < z.toNat
              · omega
              · by_cases hzx : z.toNat < x.toNat
                · simp [lexLtB, hxz, hzx] at h
                · omega
            exact Or.inr (by simp [lexLtB, hyz])

/-- Ordering used by the sort: compare folds by their extracted key lines
with Python string comparison (`sorted` only ever calls `<`; `p ≤ q` is
`¬ (q < p)`).  Python's `sorted` is stable; a stable sort is modelled
extensionally by Mathlib's (stable) `List.insertionSort` over this
relation. -/
def keyLE (p q : Fold × Line) : Prop := pyStrLt q.2 p.2 = false

instance : DecidableRel keyLE := fun _ q =>
  inferInstanceAs (Decidable (pyStrLt q.2 _ = false))

instance : IsTotal (Fold × Line) keyLE := by
  refine ⟨fun p q => ?_⟩
  unfold keyLE
  cases h : pyStrLt q.2 p.2 with
  | false => exact Or.inl rfl
  | true => exact Or.inr (lexLtB_asymm _ _ h)

instance : IsTrans (Fold × Line) keyLE := by
  refine ⟨fun p q r h h' => ?_⟩
  unfold keyLE at *
  cases hra : pyStrLt r.2 p.2 with
  | false => rfl
  | true =>
      rcases lexLtB_lt_or_lt r.2.data q.2.data p.2.data hra with hx | hx
      · exact absurd hx (by simp [pyStrLt] at h'; simp [h'])
      · exact absurd hx (by simp [pyStrLt] at h; simp [h])

/-- The fold list decorated with its sort keys, when every key lookup
succeeds. -/
def keyedOf (buf : List Line) (ranges : List (Nat × Nat)) (k : Int) :
    Option (List (Fold × Line)) :=
  keysOf buf k (initialFoldsOf ranges) |>.map ((initialFoldsOf ranges).zip ·)

/-- `sorted_folds` of `sort_folds`: the stable sort of the folds by key. -/
def sortedFoldsOf (buf : List Line) (ranges : List (Nat × Nat)) (k : Int) :
    Option (List Fold) :=
  keyedOf buf ranges k |>.map (fun kd => (List.insertionSort keyLE kd).map Prod.fst)

/-- The argument of the final `vim.command` call of `sort_folds`. -/
def closeAllFolds : String := "normal! zx"

/-- Result of a completed `sort_folds` call: the rewritten buffer and the
host commands issued by `sort_folds` itself (the final close-folds command;
commands issued inside the locator are host interaction, not modelled). -/
structure SortResult where
  buffer : List Line
  commands : List String
deriving DecidableEq, Repr

/-- One iteration of the rewrite loop of `sort_folds`:
`vim.current.buffer[dst.start:dst.end] = initial_buf[src.start:src.end]`. -/
def rewriteStep (initial : List Line) (b : List Line) (ds : Fold × Fold) :
    List Line :=
  pySliceAssign b ds.1.start ds.1.fend (pySliceGet initial ds.2.start ds.2.fend)

/-- `sort_folds(index_key)` of `SortFolds/__init__.py`.  The buffer and the
locator's fold ranges are parameters; the result is `none` when a key lookup
raises `IndexError` (which aborts the call), otherwise the final buffer
together with the issued close-folds command.  During the sort the live
buffer still equals the snapshot `initial_buf`, so key lookups read `buf`. -/
def sortFolds (buf : List Line) (ranges : List (Nat × Nat)) (k : Int) :
    Option SortResult := do
  let fs := initialFoldsOf ranges
  let keys ← keysOf buf k fs
  let sorted := (List.insertionSort keyLE (fs.zip keys)).map Prod.fst
  let final := ((fs.zip sorted).reverse).foldl (rewriteStep buf) buf
  some ⟨final, [closeAllFolds]⟩

/-! ### `VimFold` (python3/sort_folds/fold.py)

`VimFold` stores 0-based `_start`/`_stop` (here `start`/`stop`). -/

/-- `VimFold` of `sort_folds/fold.py`. -/
structure VimFold where
  start : Int
  stop : Int
deriving DecidableEq, Repr

/-- `VimFold.__init__(start, stop)`: raises `IndexError` when
`start > stop`, else stores `start - 1` and `stop - 1`. -/
def VimFold.make (start stop : Int) : Option VimFold :=
  if start > stop then none else some ⟨start - 1, stop - 1⟩

/-- `VimFold.__len__`: `self._stop - self._start`. -/
def VimFold.len (f : VimFold) : Int := f.stop - f.start

/-- `VimFold._clamp(index)` without `strict`: translates a 0-based index into
the fold's window, clamping negatives up to the start and large values down
to the stop. -/
def VimFold.clampIdx (f : VimFold) (index : Int) : Int :=
  f.start + (if index < 0 then max (index + f.len) 0 else min index f.len)

/-- `VimFold._clamp(index, strict=True)`: raises `IndexError` (`none`) unless
`-len(self) <= index < len(self)`, else translates like `clampIdx`. -/
def VimFold.clampStrict (f : VimFold) (index : Int) : Option Int :=
  if -f.len ≤ index ∧ index < f.len then some (f.clampIdx index) else none

/-- `VimFold.insert(index, value)`:
`vim.current.buffer.insert(self._clamp(index), value)`.  Note: `self._start`
and `self._stop` are not modified. -/
def VimFold.insert (f : VimFold) (buf : List Line) (index : Int) (v : Line) :
    List Line :=
  pyInsert buf (f.clampIdx index) v

/-- `VimFold.__getitem__` with an `int` key:
`vim.current.buffer[self._clamp(key, strict=True)]`. -/
def VimFold.getInt (f : VimFold) (buf : List Line) (i : Int) : Option Line := do
  bufGet buf (← f.clampStrict i)

/-- `VimFold.__setitem__` with an `int` key. -/
def VimFold.setInt (f : VimFold) (buf : List Line) (i : Int) (v : Line) :
    Option (List Line) := do
  bufSet buf (← f.clampStrict i) v

/-- `VimFold.__delitem__` with an `int` key. -/
def VimFold.delInt (f : VimFold) (buf : List Line) (i : Int) :
    Option (List Line) := do
  bufDel buf (← f.clampStrict i)

/-- A Python `slice` literal: optional start, stop and step. -/
structure PySlice where
  start : Option Int
  stop : Option Int
  step : Option Int
deriving DecidableEq, Repr

/-- `VimFold._shifted(aslice)`: translates the slice's bounds into the fold's
window (`None` bounds default to the fold's own start/stop), leaving the step
untouched. -/
def VimFold.shifted (f : VimFold) (s : PySlice) : PySlice :=
  ⟨some (match s.start with | none => f.start | some a => f.clampIdx a),
   some (match s.stop with | none => f.stop | some b => f.clampIdx b),
   s.step⟩

/-- `VimFold.__getitem__` with a sequence key: returns
`key[self._start:self._stop]` of that sequence. -/
def VimFold.getSeq (f : VimFold) (s : List Line) : List Line :=
  pySliceGet s f.start f.stop

/-- `VimFold.__setitem__` with a sequence key: performs
`key[self._start:self._stop] = value` on that sequence. -/
def VimFold.setSeq (f : VimFold) (s : List Line) (value : List Line) :
    List Line :=
  pySliceAssign s f.start f.stop value

/-! ### Characterization machinery for the rewrite loop

The rewrite loop of `sort_folds` is a reverse-order sequence of slice
assignments.  `spliceSpec` describes the outcome: the buffer text before,
between and after the destination slots is kept, in order, and each slot is
replaced by its assigned content. -/

/-- One replacement slot: a 0-based `(start, stop)` destination range paired
with its replacement content. -/
abbrev Seg := (Nat × Nat) × List Line

/-- `pySliceAssign` specialised to non-negative (already `toNat`-converted)
bounds. -/
def pySliceAssignNat (l : List Line) (a e : Nat) (xs : List Line) : List Line :=
  l.take (min a l.length) ++ xs ++ l.drop (max (min a l.length) (min e l.length))

/-- The expected result of replacing each slot by its content, from position
`pos` of `b` on: the text between slots is the original buffer text. -/
def spliceSpec (b : List Line) : List Seg → Nat → List Line
  | [], pos => b.drop pos
  | ((a, e), c) :: rest, pos =>
      (b.drop pos).take (a - pos) ++ c ++ spliceSpec b rest e

/-- The slots are in buffer order, disjoint, start at or after `pos` and lie
inside a buffer of length `blen` (all 0-based). -/
def ChainOK (blen : Nat) : Nat → List Seg → Prop
  | pos, [] => pos ≤ blen
  | pos, ((a, e), _) :: rest => pos ≤ a ∧ a ≤ e ∧ ChainOK blen e rest

/-- Start of the first slot (`blen` when there is none). -/
def firstStart (blen : Nat) : List Seg → Nat
  | [] => blen
  | ((a, _), _) :: _ => a

/-- The locator's contract on its output (spec §4.2): 1-based fold ranges
`(start, exclusive end)`, in buffer order, disjoint, inside the buffer. -/
def RangesChain (blen : Nat) : Nat → List (Nat × Nat) → Prop
  | pos, [] => pos ≤ blen + 1
  | pos, (s, e) :: rest => pos ≤ s ∧ s ≤ e ∧ RangesChain blen e rest

/-- The located fold ranges converted to 0-based `(start, stop)` slots. -/
def natSlots (ranges : List (Nat × Nat)) : List (Nat × Nat) :=
  ranges.map (fun r => (r.1 - 1, r.2 - 1))

/-- The rewrite loop's slots-and-contents view: each (destination, source)
pair becomes the destination's 0-based slot together with the content copied
from the snapshot at the source fold. -/
def segsOf (initial : List Line) (pairs : List (Fold × Fold)) : List Seg :=
  pairs.map (fun ds =>
    ((ds.1.start.toNat, ds.1.fend.toNat),
     pySliceGet initial ds.2.start ds.2.fend))

/-! ### Formalizations of two claims as stated (used to refute them) -/

/-- Claim C1 as stated, at one input: after a successful `sort_folds` run,
the line range originally occupied by the i-th located fold contains exactly
the pre-sort content of the i-th fold of the stable sort. -/
def claimC1At (buf : List Line) (ranges : List (Nat × Nat)) (k : Int) : Prop :=
  ∀ res sorted, sortFolds buf ranges k = some res →
    sortedFoldsOf buf ranges k = some sorted →
    ∀ i, i < ranges.length →
      pySliceGet res.buffer ((initialFoldsOf ranges).getD i ⟨0, 0⟩).start
          ((initialFoldsOf ranges).getD i ⟨0, 0⟩).fend =
        pySliceGet buf (sorted.getD i ⟨0, 0⟩).start (sorted.getD i ⟨0, 0⟩).fend

/-- Claim C2 as stated, at one input: if `index_key` is at least the line
count of some located fold, the call aborts with an index error. -/
def claimC2At (buf : List Line) (ranges : List (Nat × Nat)) (k : Int) : Prop :=
  (∃ r ∈ ranges, (r.2 : Int) - (r.1 : Int) ≤ k) → sortFolds buf ranges k = none

/-! ### Sanity examples (concrete evaluations of the embedding) -/

example : sortFolds ["b", "a"] [] 0 = some ⟨["b", "a"], [closeAllFolds]⟩ := by
  decide

example :
    sortFolds ["A3", "B3", "---", "A1", "B1", "---", "A2", "B2", "---"]
      [(1, 4), (4, 7), (7, 10)] 0 =
    some ⟨["A1", "B1", "---", "A2", "B2", "---", "A3", "B3", "---"],
      [closeAllFolds]⟩ := by
  rfl

/-! ### Helper lemmas -/

theorem pyIdxClamp_of_le (len : Nat) (i : Int) (h0 : 0 ≤ i) (hl : i ≤ len) :
    pyIdxClamp len i = i.toNat := by
  unfold pyIdxClamp
  rw [if_neg (by omega)]
  omega

/-! ### Claim C6 -/

/-- C6: when the locator yields no fold ranges, `sort_folds` raises no
error, leaves the buffer unchanged, and still issues the final
close-all-folds host command. -/
theorem sortFolds_no_folds (buf : List Line) (k : Int) :
    sortFolds buf [] k = some ⟨buf, [closeAllFolds]⟩ := rfl

/-! ### Claim C9 -/

/-- C9: constructing a `VimFold` from 1-based line numbers `(start, stop)`
raises an index error iff `start > stop`; on success the adapter's length is
`stop - start`. -/
theorem vimFold_make_spec (s t : Int) :
    (VimFold.make s t = none ↔ s > t) ∧
    ∀ f, VimFold.make s t = some f → f.len = t - s := by
  unfold VimFold.make
  constructor
  · split <;> simp_all
  · intro f hf
    split at hf
    · exact absurd hf (by simp)
    · cases hf
      show t - 1 - (s - 1) = t - s
      omega

theorem vimFold_make_spec_witness :
    VimFold.make 2 5 = some ⟨1, 4⟩ ∧ VimFold.len ⟨1, 4⟩ = 5 - 2 :=
  ⟨by decide, (vimFold_make_spec 2 5).2 ⟨1, 4⟩ (by decide)⟩

/-! ### Claim C8 -/

/-- C8: on an adapter of length `L ≥ 1`, strict indexed get/set/delete at a
negative index `i ∈ [-L, 0)` accesses the same backing position as `i + L`,
and any index outside `[-L, L)` raises an index error. -/
theorem vimFold_negative_index (f : VimFold) (L : Int) (buf : List Line)
    (v : Line) (i : Int) (hL : f.len = L) (h1 : 1 ≤ L) :
    ((-L ≤ i ∧ i < 0) →
      (f.getInt buf i = f.getInt buf (i + L) ∧
       f.setInt buf i v = f.setInt buf (i + L) v ∧
       f.delInt buf i = f.delInt buf (i + L))) ∧
    ((i < -L ∨ L ≤ i) →
      (f.getInt buf i = none ∧ f.setInt buf i v = none ∧
       f.delInt buf i = none)) := by
  constructor
  · rintro ⟨hi0, hi1⟩
    have hclamp : f.clampStrict i = f.clampStrict (i + L) := by
      unfold VimFold.clampStrict VimFold.clampIdx
      rw [if_pos (by omega), if_pos (by omega), if_pos (by omega),
        if_neg (by omega)]
      congr 1
      omega
    exact ⟨by simp [VimFold.getInt, hclamp], by simp [VimFold.setInt, hclamp],
      by simp [VimFold.delInt, hclamp]⟩
  · intro hout
    have hclamp : f.clampStrict i = none := by
      unfold VimFold.clampStrict
      rw [if_neg (by omega)]
    exact ⟨by simp [VimFold.getInt, hclamp], by simp [VimFold.setInt, hclamp],
      by simp [VimFold.delInt, hclamp]⟩

theorem vimFold_negative_index_witness :
    VimFold.getInt ⟨0, 3⟩ ["a", "b", "c"] (-1) =
      VimFold.getInt ⟨0, 3⟩ ["a", "b", "c"] (-1 + 3) ∧
    VimFold.getInt ⟨0, 3⟩ ["a", "b", "c"] 3 = none := by
  refine ⟨((vimFold_negative_index ⟨0, 3⟩ 3 ["a", "b", "c"] "z" (-1)
    (by decide) (by decide)).1 (by decide)).1, ?_⟩
  exact ((vimFold_negative_index ⟨0, 3⟩ 3 ["a", "b", "c"] "z" 3
    (by decide) (by decide)).2 (by decide)).1

/-! ### Claim C10 -/

/-- C10: an adapter built from valid 1-based line numbers satisfies
`0 ≤ start ≤ stop` (and is never mutated afterwards: every operation of the
embedding leaves the instance unchanged), and every index translation lands
in the fold's window: non-strict clamping (used by `insert` and slice
bounds) lands in `[start, stop]`, strict clamping (used by integer
get/set/delete) lands in `[start, stop)`. -/
theorem vimFold_window_invariant (s t : Int) (f : VimFold)
    (hmk : VimFold.make s t = some f) (h1 : 1 ≤ s) :
    (0 ≤ f.start ∧ f.start ≤ f.stop) ∧
    (∀ i, f.start ≤ f.clampIdx i ∧ f.clampIdx i ≤ f.stop) ∧
    (∀ i c, f.clampStrict i = some c → f.start ≤ c ∧ c < f.stop) ∧
    (∀ sl a', (f.shifted sl).start = some a' → f.start ≤ a' ∧ a' ≤ f.stop) ∧
    (∀ sl b', (f.shifted sl).stop = some b' → f.start ≤ b' ∧ b' ≤ f.stop) := by
  have hf : f.start = s - 1 ∧ f.stop = t - 1 ∧ s ≤ t := by
    unfold VimFold.make at hmk
    split at hmk
    · exact absurd hmk (by simp)
    · cases hmk
      exact ⟨rfl, rfl, by omega⟩
  obtain ⟨hs, ht, hst⟩ := hf
  have hlen : f.len = f.stop - f.start := rfl
  have hclampIdx : ∀ i, f.start ≤ f.clampIdx i ∧ f.clampIdx i ≤ f.stop := by
    intro i
    unfold VimFold.clampIdx
    rw [hlen]
    split <;> omega
  refine ⟨⟨by omega, by omega⟩, hclampIdx, ?_, ?_, ?_⟩
  · intro i c hc
    unfold VimFold.clampStrict at hc
    split at hc
    · cases hc
      unfold VimFold.clampIdx
      rw [hlen]
      split <;> omega
    · exact absurd hc (by simp)
  · intro sl a' ha'
    unfold VimFold.shifted at ha'
    cases hsl : sl.start with
    | none =>
        rw [hsl] at ha'
        cases ha'
        exact ⟨le_refl _, show f.start ≤ f.stop by omega⟩
    | some a => rw [hsl] at ha'; cases ha'; exact hclampIdx a
  · intro sl b' hb'
    unfold VimFold.shifted at hb'
    cases hsl : sl.stop with
    | none =>
        rw [hsl] at hb'
        cases hb'
        exact ⟨show f.start ≤ f.stop by omega, le_refl _⟩
    | some b => rw [hsl] at hb'; cases hb'; exact hclampIdx b

theorem vimFold_window_invariant_witness :
    (0 ≤ (VimFold.mk 1 4).start ∧ (VimFold.mk 1 4).start ≤ (VimFold.mk 1 4).stop) ∧
    VimFold.clampIdx ⟨1, 4⟩ 100 ≤ (VimFold.mk 1 4).stop := by
  have h := vimFold_window_invariant 2 5 ⟨1, 4⟩ (by decide) (by decide)
  exact ⟨h.1, (h.2.1 100).2⟩

theorem pyInsert_parts (l : List Line) (j : Nat) (v : Line) (hj : j ≤ l.length) :
    (l.take j ++ [v] ++ l.drop j)[j]? = some v ∧
    (l.take j ++ [v] ++ l.drop j).length = l.length + 1 := by
  have htl : (l.take j).length = j := by
    simp only [List.length_take]
    omega
  constructor
  · rw [List.append_assoc, List.getElem?_append_right (by omega), htl]
    simp
  · simp only [List.length_append, List.length_take, List.length_drop,
      List.length_cons, List.length_nil]
    omega

/-! ### Claim C3 -/

/-- C3 counterexample: on the adapter for lines `[1, 2)` (length `L = 1`)
over the one-line buffer `["a"]`, `insert(0, x)` and `insert(L, x)` do
prepend/append as claimed, but the same instance's effective length stays
`1`, not `L + 1 = 2`: the instance is structurally unchanged, and a
subsequent strict access at index `1` still raises an index error even on
the grown buffer. -/
theorem vimFold_insert_length_counterexample :
    VimFold.make 1 2 = some ⟨0, 1⟩ ∧
    VimFold.len ⟨0, 1⟩ = 1 ∧
    VimFold.insert ⟨0, 1⟩ ["a"] 0 "x" = ["x", "a"] ∧
    VimFold.insert ⟨0, 1⟩ ["a"] 1 "x" = ["a", "x"] ∧
    ¬ VimFold.len ⟨0, 1⟩ = 1 + 1 ∧
    VimFold.getInt ⟨0, 1⟩ ["a", "x"] 1 = none := by
  decide

/-- C3 (amended): for an adapter of length `L` over a backing buffer that
contains its window, `insert(0, x)` makes `x` the fold's new first line and
`insert(L, x)` places `x` immediately after the fold's last line (the buffer
grows by one in both cases), but the adapter's effective length remains `L`:
`insert` does not update the instance's `start`/`stop`, so subsequent
operations on the same instance still use the original window. -/
theorem vimFold_insert_boundary (f : VimFold) (buf : List Line) (x : Line)
    (L : Nat) (h0 : 0 ≤ f.start) (hss : f.start ≤ f.stop)
    (hsl : f.stop ≤ buf.length) (hL : f.len = L) :
    (f.insert buf 0 x)[f.start.toNat]? = some x ∧
    (f.insert buf (L : Int) x)[f.stop.toNat]? = some x ∧
    (f.insert buf 0 x).length = buf.length + 1 ∧
    (f.insert buf (L : Int) x).length = buf.length + 1 ∧
    f.len = L := by
  have hlen : f.len = f.stop - f.start := rfl
  have hc0 : f.clampIdx 0 = f.start := by
    unfold VimFold.clampIdx
    rw [if_neg (by omega)]
    omega
  have hcL : f.clampIdx (L : Int) = f.stop := by
    unfold VimFold.clampIdx
    rw [if_neg (by omega)]
    omega
  have h1 : f.insert buf 0 x =
      buf.take f.start.toNat ++ [x] ++ buf.drop f.start.toNat := by
    unfold VimFold.insert pyInsert
    rw [hc0, pyIdxClamp_of_le _ _ h0 (by omega)]
  have h2 : f.insert buf (L : Int) x =
      buf.take f.stop.toNat ++ [x] ++ buf.drop f.stop.toNat := by
    unfold VimFold.insert pyInsert
    rw [hcL, pyIdxClamp_of_le _ _ (by omega) (by omega)]
  obtain ⟨g1, l1⟩ := pyInsert_parts buf f.start.toNat x (by omega)
  obtain ⟨g2, l2⟩ := pyInsert_parts buf f.stop.toNat x (by omega)
  exact ⟨h1 ▸ g1, h2 ▸ g2, h1 ▸ l1, h2 ▸ l2, hL⟩

theorem vimFold_insert_boundary_witness :
    (VimFold.insert ⟨1, 3⟩ ["p", "a", "b", "q"] 0 "x")[(1 : Int).toNat]? =
      some "x" ∧
    (VimFold.insert ⟨1, 3⟩ ["p", "a", "b", "q"] (2 : Nat) "x")[(3 : Int).toNat]? =
      some "x" := by
  have h := vimFold_insert_boundary ⟨1, 3⟩ ["p", "a", "b", "q"] "x" 2
    (by decide) (by decide) (by decide) (by decide)
  exact ⟨h.1, h.2.1⟩

/-! ### Claim C7 -/

/-- C7: capturing a fold's content from a backing sequence through the
adapter's sequence-key branch and writing it back leaves the sequence
unchanged, whenever the fold's `[start, stop)` window lies within the
sequence. -/
theorem vimFold_roundTrip (f : VimFold) (s : List Line) (h0 : 0 ≤ f.start)
    (hss : f.start ≤ f.stop) (hsl : f.stop ≤ s.length) :
    f.setSeq s (f.getSeq s) = s := by
  unfold VimFold.setSeq VimFold.getSeq
  simp only [pySliceAssign, pySliceGet]
  rw [pyIdxClamp_of_le _ _ h0 (by omega), pyIdxClamp_of_le _ _ (by omega) hsl]
  rw [Nat.max_eq_right (by omega : f.start.toNat ≤ f.stop.toNat)]
  have hdd : s.drop f.stop.toNat =
      (s.drop f.start.toNat).drop (f.stop.toNat - f.start.toNat) := by
    rw [List.drop_drop]
    congr 1
    omega
  rw [hdd, List.append_assoc, List.take_append_drop, List.take_append_drop]

theorem vimFold_roundTrip_witness :
    VimFold.setSeq ⟨1, 3⟩ ["p", "a", "b", "q"]
      (VimFold.getSeq ⟨1, 3⟩ ["p", "a", "b", "q"]) = ["p", "a", "b", "q"] :=
  vimFold_roundTrip ⟨1, 3⟩ ["p", "a", "b", "q"] (by decide) (by decide)
    (by decide)

/-! ### Claim C2 -/

theorem keysOf_eq_none_iff (buf : List Line) (k : Int) (fs : List Fold) :
    keysOf buf k fs = none ↔ ∃ f ∈ fs, f.getLine buf k = none := by
  induction fs with
  | nil => simp [keysOf]
  | cons f fs ih =>
      constructor
      · intro h
        cases hf : f.getLine buf k with
        | none => exact ⟨f, by simp, hf⟩
        | some key =>
            cases hr : keysOf buf k fs with
            | none =>
                rcases ih.mp hr with ⟨g, hg, h0⟩
                exact ⟨g, by simp [hg], h0⟩
            | some rest => simp [keysOf, hf, hr] at h
      · rintro ⟨g, hg, h0⟩
        rcases List.mem_cons.mp hg with rfl | hg'
        · simp [keysOf, h0]
        · cases hf : f.getLine buf k with
          | none => simp [keysOf, hf]
          | some key => simp [keysOf, hf, ih.mpr ⟨g, hg', h0⟩]

theorem sortFolds_none_iff_keys (buf : List Line) (ranges : List (Nat × Nat))
    (k : Int) :
    sortFolds buf ranges k = none ↔
      keysOf buf k (initialFoldsOf ranges) = none := by
  unfold sortFolds
  cases hk : keysOf buf k (initialFoldsOf ranges) <;> simp [hk]

/-- C2 counterexample: buffer `["b", "a", "z"]` with two one-line folds
(lines 1 and 2) and `index_key = 1`: the key index is `≥` both folds' line
counts, yet `sort_folds` completes without error — each key is read from
the line after its fold (`"a"`, `"z"`), which happens to be in the buffer. -/
theorem sortFolds_index_key_counterexample :
    ¬ claimC2At ["b", "a", "z"] [(1, 2), (2, 3)] 1 := by
  intro h
  exact absurd (h ⟨(1, 2), by decide, by decide⟩) (by decide)

/-- C2 (amended): `sort_folds(k)` aborts with an index error iff the key
lookup `buffer[fold.start + k]` fails for some located fold, i.e. (for
non-negative `k`) iff some fold's `start + k` falls at or beyond the end of
the buffer snapshot.  `k` merely reaching past a fold's own line count does
not raise: `Fold.__getitem__` has no bound check against the fold's end, so
the key is then silently read from buffer lines beyond that fold. -/
theorem sortFolds_index_error_iff (buf : List Line)
    (ranges : List (Nat × Nat)) (k : Int) :
    (sortFolds buf ranges k = none ↔
      ∃ f ∈ initialFoldsOf ranges, f.getLine buf k = none) ∧
    (∀ f : Fold, 0 ≤ f.start → 0 ≤ k →
      (f.getLine buf k = none ↔ (buf.length : Int) ≤ f.start + k)) := by
  constructor
  · rw [sortFolds_none_iff_keys]
    exact keysOf_eq_none_iff buf k _
  · intro f h0 hk
    unfold Fold.getLine bufGet
    rw [if_neg (show ¬ f.start + k < 0 by omega)]
    by_cases hge : (buf.length : Int) ≤ f.start + k
    · rw [if_neg (by omega)]
      simp [hge]
    · rw [if_pos (by omega)]
      rw [List.getElem?_eq_getElem (show (f.start + k).toNat < buf.length by omega)]
      simp [hge]

theorem sortFolds_index_error_iff_witness :
    (sortFolds ["a"] [(1, 2)] 5 = none ↔
      ∃ f ∈ initialFoldsOf [(1, 2)], f.getLine ["a"] 5 = none) ∧
    (Fold.getLine ⟨0, 1⟩ ["a"] 5 = none ↔ (1 : Int) ≤ 0 + 5) :=
  ⟨(sortFolds_index_error_iff ["a"] [(1, 2)] 5).1,
   (sortFolds_index_error_iff ["a"] [(1, 2)] 5).2 ⟨0, 1⟩ (by decide) (by decide)⟩

/-! ### Properties of slot chains and `spliceSpec` -/

theorem chainOK_le (blen : Nat) : ∀ (segs : List Seg) (pos : Nat),
    ChainOK blen pos segs → pos ≤ blen
  | [], _, h => h
  | ((_, e), _) :: rest, _, h =>
      le_trans (le_trans h.1 h.2.1) (chainOK_le blen rest e h.2.2)

theorem chainOK_firstStart (blen : Nat) : ∀ (segs : List Seg) (pos : Nat),
    ChainOK blen pos segs →
    pos ≤ firstStart blen segs ∧ firstStart blen segs ≤ blen
  | [], _, h => ⟨h, le_refl _⟩
  | ((_, e), _) :: rest, _, h =>
      ⟨h.1, le_trans h.2.1 (chainOK_le blen rest e h.2.2)⟩

theorem chainOK_mono (blen : Nat) : ∀ (segs : List Seg) (pos pos' : Nat),
    ChainOK blen pos segs → pos' ≤ pos → ChainOK blen pos' segs
  | [], _, _, h, h' => le_trans h' h
  | ((_, _), _) :: _, _, _, h, h' => ⟨le_trans h' h.1, h.2.1, h.2.2⟩

theorem chainOK_mem (blen : Nat) : ∀ (segs : List Seg) (pos : Nat),
    ChainOK blen pos segs → ∀ sg ∈ segs,
    pos ≤ sg.1.1 ∧ sg.1.1 ≤ sg.1.2 ∧ sg.1.2 ≤ blen
  | [], _, _, sg, hsg => absurd hsg (List.not_mem_nil sg)
  | ((a, e), c) :: rest, pos, h, sg, hsg => by
      rcases List.mem_cons.mp hsg with rfl | hsg'
      · exact ⟨h.1, h.2.1, chainOK_le blen rest e h.2.2⟩
      · have hm := chainOK_mem blen rest e h.2.2 sg hsg'
        exact ⟨le_trans (le_trans h.1 h.2.1) hm.1, hm.2⟩

theorem spliceSpec_take (b : List Line) : ∀ (segs : List Seg) (pos k : Nat),
    ChainOK b.length pos segs → pos + k ≤ firstStart b.length segs →
    (spliceSpec b segs pos).take k = (b.drop pos).take k
  | [], _, _, _, _ => rfl
  | ((a, e), c) :: rest, pos, k, hch, hk => by
      have ha : a ≤ b.length := le_trans hch.2.1 (chainOK_le _ rest e hch.2.2)
      have hka : k ≤ a - pos := by
        have : pos + k ≤ a := hk
        omega
      have hlen : ((b.drop pos).take (a - pos)).length = a - pos := by
        simp only [List.length_take, List.length_drop]
        omega
      show ((b.drop pos).take (a - pos) ++ c ++ spliceSpec b rest e).take k = _
      rw [List.append_assoc,
        List.take_append_of_le_length (le_of_le_of_eq hka hlen.symm),
        List.take_take, min_eq_left hka]

theorem spliceSpec_drop (b : List Line) : ∀ (segs : List Seg) (pos m : Nat),
    ChainOK b.length pos segs → pos ≤ m → m ≤ firstStart b.length segs →
    (spliceSpec b segs pos).drop (m - pos) = spliceSpec b segs m
  | [], pos, m, _, hpm, _ => by
      show (b.drop pos).drop (m - pos) = b.drop m
      rw [List.drop_drop]
      congr 1
      omega
  | ((a, e), c) :: rest, pos, m, hch, hpm, hm => by
      have ha : a ≤ b.length := le_trans hch.2.1 (chainOK_le _ rest e hch.2.2)
      have hma : m ≤ a := hm
      have hlen : ((b.drop pos).take (a - pos)).length = a - pos := by
        simp only [List.length_take, List.length_drop]
        omega
      show ((b.drop pos).take (a - pos) ++ c ++ spliceSpec b rest e).drop (m - pos)
          = (b.drop m).take (a - m) ++ c ++ spliceSpec b rest e
      rw [List.append_assoc,
        List.drop_append_of_le_length (le_of_le_of_eq (by omega) hlen.symm),
        List.drop_take, List.drop_drop, ← List.append_assoc,
        show pos + (m - pos) = m by omega,
        show a - pos - (m - pos) = a - m by omega]

theorem spliceSpec_length_ge (b : List Line) : ∀ (segs : List Seg) (pos m : Nat),
    ChainOK b.length pos segs → m ≤ firstStart b.length segs →
    m - pos ≤ (spliceSpec b segs pos).length
  | [], pos, m, hch, hm => by
      show m - pos ≤ (b.drop pos).length
      have : m ≤ b.length := le_trans hm (le_refl _)
      simp only [List.length_drop]
      omega
  | ((a, e), c) :: rest, pos, m, hch, hm => by
      have ha : a ≤ b.length := le_trans hch.2.1 (chainOK_le _ rest e hch.2.2)
      have hma : m ≤ a := hm
      show m - pos ≤
        ((b.drop pos).take (a - pos) ++ c ++ spliceSpec b rest e).length
      simp only [List.length_append, List.length_take, List.length_drop]
      omega

theorem foldr_assign_eq_spliceSpec (b : List Line) : ∀ segs : List Seg,
    ChainOK b.length 0 segs →
    segs.foldr (fun s acc => pySliceAssignNat acc s.1.1 s.1.2 s.2) b =
      spliceSpec b segs 0 := by
  intro segs
  induction segs with
  | nil => intro _; rfl
  | cons sg rest ih =>
      obtain ⟨⟨a, e⟩, c⟩ := sg
      intro h
      have hrest : ChainOK b.length 0 rest :=
        chainOK_mono _ rest e 0 h.2.2 (Nat.zero_le e)
      rw [List.foldr_cons, ih hrest]
      have hae : a ≤ e := h.2.1
      have hef : e ≤ firstStart b.length rest :=
        (chainOK_firstStart _ rest e h.2.2).1
      have hS : e ≤ (spliceSpec b rest 0).length := by
        have := spliceSpec_length_ge b rest 0 e hrest hef
        omega
      unfold pySliceAssignNat
      rw [min_eq_left (le_trans h.2.1 hS), min_eq_left hS,
        max_eq_right h.2.1]
      rw [spliceSpec_take b rest 0 a hrest (by omega)]
      have hdrop := spliceSpec_drop b rest 0 e hrest (Nat.zero_le e) hef
      rw [Nat.sub_zero] at hdrop
      rw [hdrop]
      rfl

/-! ### From the rewrite loop of `sort_folds` to `spliceSpec` -/

theorem pySliceAssign_eq_nat (l : List Line) (a e : Int) (xs : List Line)
    (h0 : 0 ≤ a) (h1 : 0 ≤ e) :
    pySliceAssign l a e xs = pySliceAssignNat l a.toNat e.toNat xs := by
  simp only [pySliceAssign, pySliceAssignNat, pyIdxClamp]
  rw [if_neg (by omega), if_neg (by omega)]

theorem rewrite_foldl_eq_foldr (initial b : List Line)
    (pairs : List (Fold × Fold))
    (hnn : ∀ ds ∈ pairs, 0 ≤ ds.1.start ∧ 0 ≤ ds.1.fend) :
    (pairs.reverse).foldl (rewriteStep initial) b =
      (segsOf initial pairs).foldr
        (fun s acc => pySliceAssignNat acc s.1.1 s.1.2 s.2) b := by
  rw [List.foldl_reverse]
  induction pairs with
  | nil => rfl
  | cons ds rest ih =>
      rw [List.foldr_cons]
      rw [ih (fun d hd => hnn d (List.mem_cons_of_mem _ hd))]
      have hds := hnn ds (List.mem_cons_self _ _)
      show rewriteStep initial _ ds = _
      unfold rewriteStep
      exact pySliceAssign_eq_nat _ _ _ _ hds.1 hds.2

theorem keysOf_length (buf : List Line) (k : Int) :
    ∀ (fs : List Fold) (keys : List Line),
    keysOf buf k fs = some keys → keys.length = fs.length
  | [], keys, h => by
      simp only [keysOf, Option.some.injEq] at h
      subst h
      rfl
  | f :: fs, keys, h => by
      cases hf : f.getLine buf k with
      | none => simp [keysOf, hf] at h
      | some key =>
          cases hr : keysOf buf k fs with
          | none => simp [keysOf, hf, hr] at h
          | some rest =>
              simp [keysOf, hf, hr] at h
              subst h
              simp [keysOf_length buf k fs rest hr]

theorem rangesChain_le (blen : Nat) : ∀ (ranges : List (Nat × Nat)) (pos : Nat),
    RangesChain blen pos ranges → pos ≤ blen + 1
  | [], _, h => h
  | (_, e) :: rest, _, h =>
      le_trans (le_trans h.1 h.2.1) (rangesChain_le blen rest e h.2.2)

theorem rangesChain_fold_bounds (blen : Nat) :
    ∀ (ranges : List (Nat × Nat)) (pos : Nat),
    RangesChain blen pos ranges → 1 ≤ pos →
    ∀ f ∈ initialFoldsOf ranges,
      0 ≤ f.start ∧ f.start ≤ f.fend ∧ f.fend ≤ (blen : Int)
  | [], _, _, _, f, hf => absurd hf (List.not_mem_nil f)
  | (s, e) :: rest, pos, h, h1, f, hf => by
      have hps : pos ≤ s := h.1
      have hse : s ≤ e := h.2.1
      rcases List.mem_cons.mp hf with rfl | hf'
      · have hble : e ≤ blen + 1 := rangesChain_le blen rest e h.2.2
        refine ⟨?_, ?_, ?_⟩
        · show (0 : Int) ≤ (s : Int) - 1
          omega
        · show (s : Int) - 1 ≤ (e : Int) - 1
          omega
        · show (e : Int) - 1 ≤ (blen : Int)
          omega
      · exact rangesChain_fold_bounds blen rest e h.2.2 (by omega) f hf'

theorem chainOK_segsOf (blen : Nat) (initial : List Line) :
    ∀ (ranges : List (Nat × Nat)) (sorted : List Fold) (pos : Nat),
    RangesChain blen pos ranges → 1 ≤ pos →
    ChainOK blen (pos - 1) (segsOf initial ((initialFoldsOf ranges).zip sorted))
  | [], sorted, pos, h, h1 => by
      have hp : pos ≤ blen + 1 := h
      show pos - 1 ≤ blen
      omega
  | (s, e) :: rs, sorted, pos, h, h1 => by
      cases sorted with
      | nil =>
          show pos - 1 ≤ blen
          have := rangesChain_le blen ((s, e) :: rs) pos h
          omega
      | cons f fs =>
          have hps : pos ≤ s := h.1
          have hse : s ≤ e := h.2.1
          refine ⟨?_, ?_, ?_⟩
          · show pos - 1 ≤ ((s : Int) - 1).toNat
            omega
          · show ((s : Int) - 1).toNat ≤ ((e : Int) - 1).toNat
            omega
          · have h1e : 1 ≤ e := by omega
            have hrec := chainOK_segsOf blen initial rs fs e h.2.2 h1e
            have heq : ((e : Int) - 1).toNat = e - 1 := by omega
            show ChainOK blen ((e : Int) - 1).toNat
              (segsOf initial ((initialFoldsOf rs).zip fs))
            rw [heq]
            exact hrec

theorem pySliceGet_toNat (l : List Line) (a e : Int) (h0 : 0 ≤ a)
    (hae : a ≤ e) (hel : e ≤ (l.length : Int)) :
    pySliceGet l a e = (l.drop a.toNat).take (e.toNat - a.toNat) := by
  simp only [pySliceGet]
  rw [pyIdxClamp_of_le _ _ h0 (by omega), pyIdxClamp_of_le _ _ (by omega) (by omega)]

theorem sortFolds_run_spec (buf : List Line) (ranges : List (Nat × Nat))
    (k : Int) (res : SortResult) (hchain : RangesChain buf.length 1 ranges)
    (hrun : sortFolds buf ranges k = some res) :
    ∃ keys sorted,
      keysOf buf k (initialFoldsOf ranges) = some keys ∧
      sortedFoldsOf buf ranges k = some sorted ∧
      sorted =
        (List.insertionSort keyLE ((initialFoldsOf ranges).zip keys)).map
          Prod.fst ∧
      sorted.length = ranges.length ∧
      res.commands = [closeAllFolds] ∧
      res.buffer =
        spliceSpec buf (segsOf buf ((initialFoldsOf ranges).zip sorted)) 0 := by
  cases hk : keysOf buf k (initialFoldsOf ranges) with
  | none =>
      have hnone := (sortFolds_none_iff_keys buf ranges k).mpr hk
      rw [hnone] at hrun
      simp at hrun
  | some keys =>
      have h1 : keys.length = (initialFoldsOf ranges).length :=
        keysOf_length buf k _ keys hk
      have hsf : sortedFoldsOf buf ranges k =
          some ((List.insertionSort keyLE
            ((initialFoldsOf ranges).zip keys)).map Prod.fst) := by
        unfold sortedFoldsOf keyedOf
        rw [hk]
        rfl
      have hslen : ((List.insertionSort keyLE
          ((initialFoldsOf ranges).zip keys)).map Prod.fst).length =
          ranges.length := by
        simp only [List.length_map, List.length_insertionSort,
          List.length_zip, h1, min_self]
        simp [initialFoldsOf]
      have hrun' : sortFolds buf ranges k =
          some ⟨(((initialFoldsOf ranges).zip
              ((List.insertionSort keyLE
                ((initialFoldsOf ranges).zip keys)).map Prod.fst)).reverse).foldl
              (rewriteStep buf) buf, [closeAllFolds]⟩ := by
        simp only [sortFolds, hk, Option.bind_eq_bind, Option.some_bind]
      rw [hrun] at hrun'
      injection hrun' with hres
      have hnn : ∀ ds ∈ (initialFoldsOf ranges).zip
          ((List.insertionSort keyLE
            ((initialFoldsOf ranges).zip keys)).map Prod.fst),
          0 ≤ ds.1.start ∧ 0 ≤ ds.1.fend := by
        rintro ⟨d, s⟩ hds
        have hd := (List.of_mem_zip hds).1
        have hb := rangesChain_fold_bounds buf.length ranges 1 hchain
          (le_refl 1) d hd
        exact ⟨hb.1, le_trans hb.1 hb.2.1⟩
      have hchOK : ChainOK buf.length 0 (segsOf buf
          ((initialFoldsOf ranges).zip
            ((List.insertionSort keyLE
              ((initialFoldsOf ranges).zip keys)).map Prod.fst))) := by
        have := chainOK_segsOf buf.length buf ranges
          ((List.insertionSort keyLE
            ((initialFoldsOf ranges).zip keys)).map Prod.fst) 1 hchain
          (le_refl 1)
        exact this
      refine ⟨keys,
        (List.insertionSort keyLE
          ((initialFoldsOf ranges).zip keys)).map Prod.fst,
        rfl, hsf, rfl, hslen, ?_, ?_⟩
      · rw [hres]
      · rw [hres]
        show (((initialFoldsOf ranges).zip _).reverse).foldl
          (rewriteStep buf) buf = _
        rw [rewrite_foldl_eq_foldr buf buf _ hnn,
          foldr_assign_eq_spliceSpec buf _ hchOK]

theorem foldSlots_eq_natSlots (blen : Nat) :
    ∀ (ranges : List (Nat × Nat)) (pos : Nat),
    RangesChain blen pos ranges → 1 ≤ pos →
    (initialFoldsOf ranges).map (fun d => (d.start.toNat, d.fend.toNat)) =
      natSlots ranges
  | [], _, _, _ => rfl
  | (s, e) :: rest, pos, h, h1 => by
      have hps : pos ≤ s := h.1
      have hse : s ≤ e := h.2.1
      show (((s : Int) - 1).toNat, ((e : Int) - 1).toNat) :: _ =
        (s - 1, e - 1) :: _
      congr 1
      · simp only [Prod.mk.injEq]
        constructor <;> omega
      · exact foldSlots_eq_natSlots blen rest e h.2.2 (by omega)

/-! ### Claim C4 -/

/-- C4: after a successful `sort_folds` run over located fold ranges that
are in order, disjoint and inside the buffer, the resulting buffer is the
original buffer with only the located fold ranges replaced: the text before
the first fold, between consecutive folds and after the last fold is kept
verbatim and in order (that is exactly what `spliceSpec` builds). -/
theorem sortFolds_frame (buf : List Line) (ranges : List (Nat × Nat)) (k : Int)
    (res : SortResult) (hchain : RangesChain buf.length 1 ranges)
    (hrun : sortFolds buf ranges k = some res) :
    ∃ contents : List (List Line), contents.length = ranges.length ∧
      res.buffer = spliceSpec buf ((natSlots ranges).zip contents) 0 := by
  obtain ⟨keys, sorted, hk, hsf, hsdef, hslen, hcmd, hbuf⟩ :=
    sortFolds_run_spec buf ranges k res hchain hrun
  refine ⟨((initialFoldsOf ranges).zip sorted).map
    (fun ds => pySliceGet buf ds.2.start ds.2.fend), ?_, ?_⟩
  · simp [initialFoldsOf, hslen]
  · rw [hbuf]
    congr 1
    unfold segsOf
    rw [← List.zip_map' (fun ds : Fold × Fold =>
        (ds.1.start.toNat, ds.1.fend.toNat))
      (fun ds : Fold × Fold => pySliceGet buf ds.2.start ds.2.fend)]
    congr 1
    have hcomp : ((initialFoldsOf ranges).zip sorted).map
        (fun ds : Fold × Fold => (ds.1.start.toNat, ds.1.fend.toNat)) =
        (((initialFoldsOf ranges).zip sorted).map Prod.fst).map
          (fun d => (d.start.toNat, d.fend.toNat)) := by
      rw [List.map_map]
      rfl
    rw [hcomp, List.map_fst_zip _ _ (by simp [initialFoldsOf, hslen]),
      foldSlots_eq_natSlots buf.length ranges 1 hchain (le_refl 1)]

theorem sortFolds_frame_witness :
    ∃ contents : List (List Line), contents.length = [(2, 3)].length ∧
      (SortResult.mk ["x", "a", "y"] [closeAllFolds]).buffer =
        spliceSpec ["x", "a", "y"] ((natSlots [(2, 3)]).zip contents) 0 :=
  sortFolds_frame ["x", "a", "y"] [(2, 3)] 0
    ⟨["x", "a", "y"], [closeAllFolds]⟩
    (show (1 : Nat) ≤ 2 ∧ 2 ≤ 3 ∧ 3 ≤ 3 + 1 by decide) (by rfl)

/-! ### Claim C5 -/

theorem zip_self_eq (l : List Fold) : ∀ p ∈ l.zip l, p.1 = p.2 := by
  induction l with
  | nil => intro p hp; exact absurd hp (List.not_mem_nil p)
  | cons x xs ih =>
      intro p hp
      rcases List.mem_cons.mp hp with rfl | hp'
      · rfl
      · exact ih p hp'

theorem spliceSpec_id (b : List Line) : ∀ (segs : List Seg) (pos : Nat),
    ChainOK b.length pos segs →
    (∀ sg ∈ segs, sg.2 = (b.drop sg.1.1).take (sg.1.2 - sg.1.1)) →
    spliceSpec b segs pos = b.drop pos
  | [], _, _, _ => rfl
  | ((a, e), c) :: rest, pos, hch, hc => by
      have hpa : pos ≤ a := hch.1
      have hae : a ≤ e := hch.2.1
      have hrec := spliceSpec_id b rest e hch.2.2
        (fun sg h => hc sg (List.mem_cons_of_mem _ h))
      have hcc : c = (b.drop a).take (e - a) := hc _ (List.mem_cons_self _ _)
      show (b.drop pos).take (a - pos) ++ c ++ spliceSpec b rest e = b.drop pos
      rw [hrec, hcc,
        show b.drop a = (b.drop pos).drop (a - pos) by
          rw [List.drop_drop]; congr 1; omega,
        show b.drop e = ((b.drop pos).drop (a - pos)).drop (e - a) by
          rw [List.drop_drop, List.drop_drop]; congr 1; omega,
        List.append_assoc, List.take_append_drop, List.take_append_drop]

/-- C5: when the located folds are already in sorted key order (the stable
sort returns them in their original order), `sort_folds` leaves the buffer
unchanged, and running it again on the result returns the same outcome as
the first run. -/
theorem sortFolds_already_sorted (buf : List Line) (ranges : List (Nat × Nat))
    (k : Int) (res : SortResult)
    (hchain : RangesChain buf.length 1 ranges)
    (hsorted : sortedFoldsOf buf ranges k = some (initialFoldsOf ranges))
    (hrun : sortFolds buf ranges k = some res) :
    res.buffer = buf ∧ sortFolds res.buffer ranges k = some res := by
  obtain ⟨keys, sorted, hk, hsf, hsdef, hslen, hcmd, hbuf⟩ :=
    sortFolds_run_spec buf ranges k res hchain hrun
  have hss : sorted = initialFoldsOf ranges := by
    rw [hsf] at hsorted
    injection hsorted
  subst hss
  have hcontents : ∀ sg ∈ segsOf buf
      ((initialFoldsOf ranges).zip (initialFoldsOf ranges)),
      sg.2 = (buf.drop sg.1.1).take (sg.1.2 - sg.1.1) := by
    intro sg hsg
    obtain ⟨ds, hds, rfl⟩ := List.mem_map.mp hsg
    obtain ⟨d, s⟩ := ds
    have hdd : d = s := zip_self_eq _ (d, s) hds
    subst hdd
    have hd := (List.of_mem_zip hds).1
    have hb := rangesChain_fold_bounds buf.length ranges 1 hchain
      (le_refl 1) d hd
    show pySliceGet buf d.start d.fend =
      (buf.drop d.start.toNat).take (d.fend.toNat - d.start.toNat)
    exact pySliceGet_toNat buf d.start d.fend hb.1 hb.2.1 hb.2.2
  have hch0 := chainOK_segsOf buf.length buf ranges (initialFoldsOf ranges) 1
    hchain (le_refl 1)
  have hid := spliceSpec_id buf _ 0 hch0 hcontents
  rw [List.drop_zero] at hid
  have hbb : res.buffer = buf := hbuf.trans hid
  exact ⟨hbb, by rw [hbb]; exact hrun⟩

theorem sortFolds_already_sorted_witness :
    (SortResult.mk ["a", "b"] [closeAllFolds]).buffer = ["a", "b"] ∧
    sortFolds (SortResult.mk ["a", "b"] [closeAllFolds]).buffer
      [(1, 2), (2, 3)] 0 = some ⟨["a", "b"], [closeAllFolds]⟩ :=
  sortFolds_already_sorted ["a", "b"] [(1, 2), (2, 3)] 0
    ⟨["a", "b"], [closeAllFolds]⟩
    (show (1 : Nat) ≤ 1 ∧ 1 ≤ 2 ∧ (2 ≤ 2 ∧ 2 ≤ 3 ∧ 3 ≤ 2 + 1) by decide)
    (by rfl) (by rfl)

/-! ### Claim C1: stability of the sort and slot contents -/

theorem filter_orderedInsert_key (v : Line) (x : Fold × Line) :
    ∀ s : List (Fold × Line),
    (List.orderedInsert keyLE x s).filter (fun p => decide (p.2 = v)) =
      if x.2 = v then x :: s.filter (fun p => decide (p.2 = v))
      else s.filter (fun p => decide (p.2 = v))
  | [] => by
      by_cases hx : x.2 = v <;>
        simp [List.orderedInsert, List.filter, hx]
  | b :: s => by
      simp only [List.orderedInsert]
      by_cases hxb : keyLE x b
      · rw [if_pos hxb]
        by_cases hx : x.2 = v <;> by_cases hb : b.2 = v <;>
          simp [List.filter_cons, hx, hb]
      · rw [if_neg hxb]
        have hIH := filter_orderedInsert_key v x s
        by_cases hx : x.2 = v
        · have hbne : b.2 ≠ v := by
            intro hbv
            have hlt : pyStrLt b.2 x.2 = true := by
              cases hc : pyStrLt b.2 x.2 with
              | true => rfl
              | false => exact absurd hc hxb
            rw [hbv, hx] at hlt
            unfold pyStrLt at hlt
            rw [lexLtB_irrefl] at hlt
            exact Bool.noConfusion hlt
          rw [if_pos hx] at hIH ⊢
          simp [List.filter_cons, hbne, hIH]
        · rw [if_neg hx] at hIH ⊢
          by_cases hb : b.2 = v <;> simp [List.filter_cons, hb, hIH]

/-- Python's `sorted` is stable: for each key value, the subsequence of
entries carrying that key is preserved verbatim by the sort. -/
theorem filter_insertionSort_key (v : Line) : ∀ l : List (Fold × Line),
    (List.insertionSort keyLE l).filter (fun p => decide (p.2 = v)) =
      l.filter (fun p => decide (p.2 = v))
  | [] => rfl
  | x :: l => by
      simp only [List.insertionSort]
      rw [filter_orderedInsert_key v x (List.insertionSort keyLE l)]
      by_cases hx : x.2 = v
      · rw [if_pos hx, filter_insertionSort_key v l, List.filter_cons]
        simp [hx]
      · rw [if_neg hx, filter_insertionSort_key v l, List.filter_cons]
        simp [hx]

theorem spliceSpec_slot (b : List Line) : ∀ (segs : List Seg) (pos : Nat),
    ChainOK b.length pos segs →
    (∀ sg ∈ segs, sg.2.length = sg.1.2 - sg.1.1) →
    ∀ sg ∈ segs,
      ((spliceSpec b segs pos).drop (sg.1.1 - pos)).take (sg.1.2 - sg.1.1) =
        sg.2
  | [], _, _, _, sg, hsg => absurd hsg (List.not_mem_nil sg)
  | ((a, e), c) :: rest, pos, hch, hlen, sg, hsg => by
      have hpa : pos ≤ a := hch.1
      have hae : a ≤ e := hch.2.1
      have hab : a ≤ b.length := le_trans hae (chainOK_le _ rest e hch.2.2)
      have hX : ((b.drop pos).take (a - pos)).length = a - pos := by
        simp only [List.length_take, List.length_drop]
        omega
      have hc : c.length = e - a := hlen _ (List.mem_cons_self _ _)
      rcases List.mem_cons.mp hsg with rfl | hsg'
      · show (((b.drop pos).take (a - pos) ++ c ++
          spliceSpec b rest e).drop (a - pos)).take (e - a) = c
        rw [List.append_assoc, List.drop_left' hX, List.take_left' hc]
      · have hbound := chainOK_mem _ rest e hch.2.2 sg hsg'
        show (((b.drop pos).take (a - pos) ++ c ++
          spliceSpec b rest e).drop (sg.1.1 - pos)).take (sg.1.2 - sg.1.1) =
          sg.2
        rw [List.append_assoc, List.drop_append_eq_append_drop,
          List.drop_append_eq_append_drop,
          List.drop_eq_nil_of_le (by rw [hX]; omega : ((b.drop pos).take (a - pos)).length ≤ sg.1.1 - pos),
          List.nil_append, hX,
          List.drop_eq_nil_of_le (by rw [hc]; omega : c.length ≤ sg.1.1 - pos - (a - pos)),
          List.nil_append, hc,
          show sg.1.1 - pos - (a - pos) - (e - a) = sg.1.1 - e by omega]
        exact spliceSpec_slot b rest e hch.2.2
          (fun s hs => hlen s (List.mem_cons_of_mem _ hs)) sg hsg'

theorem spliceSpec_length (b : List Line) : ∀ (segs : List Seg) (pos : Nat),
    ChainOK b.length pos segs →
    (∀ sg ∈ segs, sg.2.length = sg.1.2 - sg.1.1) →
    (spliceSpec b segs pos).length = b.length - pos
  | [], pos, _, _ => by
      show (b.drop pos).length = b.length - pos
      simp
  | ((a, e), c) :: rest, pos, hch, hlen => by
      have hpa : pos ≤ a := hch.1
      have hae : a ≤ e := hch.2.1
      have heb : e ≤ b.length := chainOK_le _ rest e hch.2.2
      have hc : c.length = e - a := hlen _ (List.mem_cons_self _ _)
      have hrec := spliceSpec_length b rest e hch.2.2
        (fun s hs => hlen s (List.mem_cons_of_mem _ hs))
      show ((b.drop pos).take (a - pos) ++ c ++
        spliceSpec b rest e).length = b.length - pos
      simp only [List.length_append, List.length_take, List.length_drop,
        hrec, hc]
      omega

theorem rangesChain_mem (blen : Nat) : ∀ (ranges : List (Nat × Nat)) (pos : Nat),
    RangesChain blen pos ranges → 1 ≤ pos →
    ∀ r ∈ ranges, 1 ≤ r.1 ∧ r.1 ≤ r.2 ∧ r.2 ≤ blen + 1
  | [], _, _, _, r, hr => absurd hr (List.not_mem_nil r)
  | (s, e) :: rest, pos, h, h1, r, hr => by
      have hps : pos ≤ s := h.1
      have hse : s ≤ e := h.2.1
      rcases List.mem_cons.mp hr with rfl | hr'
      · exact ⟨by omega, by omega, rangesChain_le blen rest e h.2.2⟩
      · exact rangesChain_mem blen rest e h.2.2 (by omega) r hr'

theorem getD_eq_getElem_of_lt (l : List Fold) (dflt : Fold) (i : Nat)
    (h : i < l.length) : l.getD i dflt = l[i] := by
  simp [List.getD_eq_getElem?_getD, List.getElem?_eq_getElem h]

/-- C1 (amended): when all located folds have the same line count `L`, a
successful `sort_folds(k)` leaves, in the line range originally occupied by
the i-th fold, exactly the pre-sort content of the i-th fold of the stable
sort — where the stable sort is characterized by: it is a permutation of
the keyed folds, it is sorted by key, and entries with any fixed key value
keep their original relative order. -/
theorem sortFolds_equal_length_slots (buf : List Line)
    (ranges : List (Nat × Nat)) (k : Int) (L : Nat) (res : SortResult)
    (kd : List (Fold × Line)) (sorted : List Fold)
    (hchain : RangesChain buf.length 1 ranges)
    (hlen : ∀ r ∈ ranges, r.2 = r.1 + L)
    (hkd : keyedOf buf ranges k = some kd)
    (hsorted : sortedFoldsOf buf ranges k = some sorted)
    (hrun : sortFolds buf ranges k = some res) :
    List.Perm (List.insertionSort keyLE kd) kd ∧
    List.Sorted keyLE (List.insertionSort keyLE kd) ∧
    (∀ v : Line,
      (List.insertionSort keyLE kd).filter (fun p => decide (p.2 = v)) =
        kd.filter (fun p => decide (p.2 = v))) ∧
    sorted = (List.insertionSort keyLE kd).map Prod.fst ∧
    ∀ i, i < ranges.length →
      pySliceGet res.buffer ((initialFoldsOf ranges).getD i ⟨0, 0⟩).start
          ((initialFoldsOf ranges).getD i ⟨0, 0⟩).fend =
        pySliceGet buf (sorted.getD i ⟨0, 0⟩).start
          (sorted.getD i ⟨0, 0⟩).fend := by
  obtain ⟨keys, sorted', hk, hsf', hsdef', hslen', hcmd, hbuf⟩ :=
    sortFolds_run_spec buf ranges k res hchain hrun
  have hkd' : kd = (initialFoldsOf ranges).zip keys := by
    unfold keyedOf at hkd
    rw [hk] at hkd
    injection hkd with h
    exact h.symm
  have hss : sorted = sorted' := by
    rw [hsorted] at hsf'
    injection hsf'
  subst hss
  subst hkd'
  refine ⟨List.perm_insertionSort keyLE _, List.sorted_insertionSort keyLE _,
    fun v => filter_insertionSort_key v _, hsdef', ?_⟩
  intro i hi
  have hfs_len : (initialFoldsOf ranges).length = ranges.length := by
    simp [initialFoldsOf]
  have hi_fs : i < (initialFoldsOf ranges).length := by omega
  have hi_s : i < sorted.length := by omega
  have hi_z : i < ((initialFoldsOf ranges).zip sorted).length := by
    simp only [List.length_zip]
    omega
  have hi_seg : i < (segsOf buf ((initialFoldsOf ranges).zip sorted)).length := by
    simp only [segsOf, List.length_map]
    omega
  rw [getD_eq_getElem_of_lt _ _ i hi_fs, getD_eq_getElem_of_lt _ _ i hi_s]
  have hsorted_mem : ∀ f ∈ sorted, f ∈ initialFoldsOf ranges := by
    intro f hf
    rw [hsdef'] at hf
    obtain ⟨p, hp, rfl⟩ := List.mem_map.mp hf
    exact (List.of_mem_zip ((List.mem_insertionSort keyLE).mp hp)).1
  have hfoldL : ∀ f ∈ initialFoldsOf ranges,
      f.fend.toNat - f.start.toNat = L ∧ 0 ≤ f.start ∧ f.start ≤ f.fend ∧
        f.fend ≤ (buf.length : Int) := by
    intro f hf
    obtain ⟨r, hr, rfl⟩ := List.mem_map.mp hf
    have h1 := rangesChain_mem buf.length ranges 1 hchain (le_refl 1) r hr
    have h2 := hlen r hr
    refine ⟨?_, ?_, ?_, ?_⟩ <;> simp only [Fold.ofLineNums] <;> omega
  have hlenMatch : ∀ sg ∈ segsOf buf ((initialFoldsOf ranges).zip sorted),
      sg.2.length = sg.1.2 - sg.1.1 := by
    intro sg hsg
    obtain ⟨⟨dd, ss⟩, hds, rfl⟩ := List.mem_map.mp hsg
    have hdd := hfoldL dd (List.of_mem_zip hds).1
    have hss := hfoldL ss (hsorted_mem ss (List.of_mem_zip hds).2)
    show (pySliceGet buf ss.start ss.fend).length =
      dd.fend.toNat - dd.start.toNat
    rw [pySliceGet_toNat buf ss.start ss.fend hss.2.1 hss.2.2.1 hss.2.2.2]
    simp only [List.length_take, List.length_drop]
    have h1 : ss.fend.toNat - ss.start.toNat = L := hss.1
    have h2 : dd.fend.toNat - dd.start.toNat = L := hdd.1
    have h3 : ss.fend ≤ (buf.length : Int) := hss.2.2.2
    have h4 : (0 : Int) ≤ ss.start := hss.2.1
    omega
  have hchOK : ChainOK buf.length 0
      (segsOf buf ((initialFoldsOf ranges).zip sorted)) :=
    chainOK_segsOf buf.length buf ranges sorted 1 hchain (le_refl 1)
  have hblen : res.buffer.length = buf.length := by
    rw [hbuf, spliceSpec_length buf _ 0 hchOK hlenMatch]
    omega
  have hseg : (segsOf buf ((initialFoldsOf ranges).zip sorted))[i] =
      (((initialFoldsOf ranges)[i].start.toNat,
        (initialFoldsOf ranges)[i].fend.toNat),
       pySliceGet buf sorted[i].start sorted[i].fend) := by
    simp [segsOf, List.getElem_zip]
  have hmem : (segsOf buf ((initialFoldsOf ranges).zip sorted))[i] ∈
      segsOf buf ((initialFoldsOf ranges).zip sorted) :=
    List.getElem_mem hi_seg
  have hslot := spliceSpec_slot buf _ 0 hchOK hlenMatch _ hmem
  rw [hseg] at hslot
  have hdL := hfoldL ((initialFoldsOf ranges)[i]) (List.getElem_mem hi_fs)
  rw [pySliceGet_toNat res.buffer _ _ hdL.2.1 hdL.2.2.1
    (by rw [hblen]; exact hdL.2.2.2), hbuf]
  simpa using hslot

/-- C1 counterexample: buffer `["b", "a", "x"]` with a one-line fold (line 1)
followed by a two-line fold (lines 2-3), key line 0.  The stable sort puts
the two-line fold (key `"a"`) first; the rewritten buffer is
`["a", "x", "b"]`, and the line range originally occupied by the first fold
(`[0, 1)`) contains `["a"]`, not the sorted fold's full pre-sort content
`["a", "x"]`: with unequal fold lengths the slice assignments shift the
original ranges. -/
theorem sortFolds_slot_counterexample :
    ¬ claimC1At ["b", "a", "x"] [(1, 2), (2, 4)] 0 := by
  intro h
  have hinst := h ⟨["a", "x", "b"], [closeAllFolds]⟩ [⟨1, 3⟩, ⟨0, 1⟩]
    (by decide) (by decide) 0 (by decide)
  exact absurd hinst (by decide)

theorem sortFolds_equal_length_slots_witness :
    pySliceGet (SortResult.mk ["a", "b"] [closeAllFolds]).buffer
        ((initialFoldsOf [(1, 2), (2, 3)]).getD 0 ⟨0, 0⟩).start
        ((initialFoldsOf [(1, 2), (2, 3)]).getD 0 ⟨0, 0⟩).fend =
      pySliceGet ["b", "a"]
        (([⟨1, 2⟩, ⟨0, 1⟩] : List Fold).getD 0 ⟨0, 0⟩).start
        (([⟨1, 2⟩, ⟨0, 1⟩] : List Fold).getD 0 ⟨0, 0⟩).fend :=
  (sortFolds_equal_length_slots ["b", "a"] [(1, 2), (2, 3)] 0 1
    ⟨["a", "b"], [closeAllFolds]⟩ [(⟨0, 1⟩, "b"), (⟨1, 2⟩, "a")]
    [⟨1, 2⟩, ⟨0, 1⟩]
    (show (1 : Nat) ≤ 1 ∧ 1 ≤ 2 ∧ (2 ≤ 2 ∧ 2 ≤ 3 ∧ 3 ≤ 2 + 1) by decide)
    (by decide) (by decide) (by decide) (by decide)).2.2.2.2 0 (by decide)
